import Mathlib

/-
Verification of the PAGA2 transition pipeline (scvelo/tools/paga.py,
PAGA2.compute_transitions and get_sparse_from_igraph).

The pipeline, as written in the source:
  1. vgraph = (velocity_graph > .1), a boolean fine graph over N cells,
     with rows of sink ("final") cells and columns of root-cluster cells
     zeroed out;
  2. the coarse graph over the K clusters is obtained via igraph
     cluster_graph(combine_edges='sum'), which sums the (unit) edge
     weights per ordered cluster pair and drops intra-cluster self-loops
     (igraph simplify removes loops);
  3. flow = coarse - coarse.T; each nonzero flow entry is normalized to
     0 if negative, else flow / sqrt(total_n i * total_n j) with
     total_n g = n_neighbors * size g * 2;
  4. an in-place domination pruning loop over the dense confidence
     matrix T: for each row i with J = positive columns of row i,
     indirect k = max over j in J of min (T j k) (T i j), and every
     entry T i k < indirect k is zeroed;
  5. the spanning-tree threshold: per column nanmax of the positive
     entries (NaN when a column has none), nanmin over the non-root
     columns, minus 1e-6; all-NaN propagates to a NaN threshold.

Cell-level weights are modelled as exact rationals, the confidence
normalization (which divides by a real square root) over the reals, and
the NaN produced by the threshold computation as Option.none.
-/

namespace Paga

/-! ## Domination pruning (paga.py lines 110-117)

The dense working matrix is a function Fin K → Fin K → ℚ; row index is
the source group, column index the target group. -/

/-- Set of strictly positive columns of row i: numpy idx = T[i] > 0. -/
def Jset {K : ℕ} (T : Fin K → Fin K → ℚ) (i : Fin K) : Finset (Fin K) :=
  Finset.univ.filter fun j => 0 < T i j

/-- Indirect two-hop bound for target k from source i:
np.clip(T[idx], None, T[i][idx][:, None]).max(0), i.e. the maximum over
j in Jset of min (T j k) (T i j); ⊥ encodes the empty-Jset case, in
which numpy's if np.any(idx) guard skips the row. -/
def indirectW {K : ℕ} (T : Fin K → Fin K → ℚ) (i k : Fin K) : WithBot ℚ :=
  (Jset T i).sup fun j => ((min (T j k) (T i j) : ℚ) : WithBot ℚ)

/-- One iteration of the pruning loop: row i is pruned against the
current matrix T (entries T i k with T i k < indirect k are zeroed),
all other rows are returned unchanged. -/
def pruneRow {K : ℕ} (T : Fin K → Fin K → ℚ) (i : Fin K) : Fin K → Fin K → ℚ :=
  fun r k => if r = i ∧ (T i k : WithBot ℚ) < indirectW T i k then 0 else T r k

/-- The full sequential in-place loop for i in range(len(T)), each step
reading the matrix as left by the previous steps. -/
def pruneSeq {K : ℕ} (T : Fin K → Fin K → ℚ) : Fin K → Fin K → ℚ :=
  (List.finRange K).foldl pruneRow T

/-- Read-only-input semantics: every row's pruning decision is taken
from the matrix as it stood at entry to the pruning stage. -/
def pruneReadOnly {K : ℕ} (T : Fin K → Fin K → ℚ) : Fin K → Fin K → ℚ :=
  fun r k => pruneRow T r r k

lemma pruneRow_ne {K : ℕ} (T : Fin K → Fin K → ℚ) (i r k : Fin K) (h : r ≠ i) :
    pruneRow T i r k = T r k := by
  simp [pruneRow, h]

lemma pruneRow_self {K : ℕ} (T : Fin K → Fin K → ℚ) (i k : Fin K) :
    pruneRow T i i k = if (T i k : WithBot ℚ) < indirectW T i k then 0 else T i k := by
  simp [pruneRow]

lemma pruneRow_cases {K : ℕ} (T : Fin K → Fin K → ℚ) (i r k : Fin K) :
    pruneRow T i r k = T r k ∨ pruneRow T i r k = 0 := by
  unfold pruneRow
  split
  · exact Or.inr rfl
  · exact Or.inl rfl

lemma pruneRow_nonneg {K : ℕ} (T : Fin K → Fin K → ℚ) (i r k : Fin K)
    (hT : ∀ p q, 0 ≤ T p q) : 0 ≤ pruneRow T i r k := by
  rcases pruneRow_cases T i r k with h | h
  · rw [h]; exact hT r k
  · rw [h]

lemma pruneRow_le {K : ℕ} (T : Fin K → Fin K → ℚ) (i r k : Fin K)
    (hT : ∀ p q, 0 ≤ T p q) : pruneRow T i r k ≤ T r k := by
  rcases pruneRow_cases T i r k with h | h
  · rw [h]
  · rw [h]; exact hT r k

lemma mem_Jset {K : ℕ} (T : Fin K → Fin K → ℚ) (i j : Fin K) :
    j ∈ Jset T i ↔ 0 < T i j := by
  simp [Jset]

/-- Monotonicity of the indirect bound: a matrix that is entrywise below
T and agrees with T on the positive entries of row i has a smaller
indirect bound. -/
lemma indirectW_mono {K : ℕ} (A T : Fin K → Fin K → ℚ) (i k : Fin K)
    (hle : ∀ p q, A p q ≤ T p q) (hrow : ∀ j, 0 < A i j → A i j = T i j) :
    indirectW A i k ≤ indirectW T i k := by
  unfold indirectW
  apply Finset.sup_le
  intro j hj
  have hj' : 0 < A i j := (mem_Jset A i j).1 hj
  have hrj := hrow j hj'
  have hjT : j ∈ Jset T i := (mem_Jset T i j).2 (hrj ▸ hj')
  have hmin : min (A j k) (A i j) ≤ min (T j k) (T i j) :=
    min_le_min (hle j k) (le_of_eq hrj)
  exact le_trans (WithBot.coe_le_coe.2 hmin)
    (Finset.le_sup (f := fun j => ((min (T j k) (T i j) : ℚ) : WithBot ℚ)) hjT)

/-- Pruning a row against a partially pruned matrix prunes no more than
pruning it against the original matrix, provided the partially pruned
matrix is nonnegative, lies below the original and still carries the
original row i. -/
lemma pruneRow_step_ge {K : ℕ} (A T : Fin K → Fin K → ℚ) (i : Fin K)
    (hle : ∀ p q, A p q ≤ T p q) (hrow : ∀ j, A i j = T i j)
    (hA : ∀ p q, 0 ≤ A p q) (k : Fin K) :
    pruneRow T i i k ≤ pruneRow A i i k := by
  rw [pruneRow_self, pruneRow_self]
  have hind : indirectW A i k ≤ indirectW T i k :=
    indirectW_mono A T i k hle (fun j _ => hrow j)
  by_cases hT : (T i k : WithBot ℚ) < indirectW T i k
  · rw [if_pos hT]
    split
    · exact le_refl 0
    · exact hA i k
  · rw [if_neg hT]
    have hcond : ¬ ((A i k : WithBot ℚ) < indirectW A i k) := by
      intro hlt
      apply hT
      rw [hrow k] at hlt
      exact lt_of_lt_of_le hlt hind
    rw [if_neg hcond, hrow k]

lemma foldl_pruneRow_notmem {K : ℕ} (l : List (Fin K)) (A : Fin K → Fin K → ℚ)
    (r : Fin K) (hr : r ∉ l) (k : Fin K) : (l.foldl pruneRow A) r k = A r k := by
  induction l generalizing A with
  | nil => rfl
  | cons i t ih =>
    have hri : r ≠ i := fun h => hr (h ▸ List.mem_cons_self i t)
    have hrt : r ∉ t := fun h => hr (List.mem_cons_of_mem i h)
    rw [List.foldl_cons, ih (pruneRow A i) hrt, pruneRow_ne A i r k hri]

lemma foldl_pruneRow_cases {K : ℕ} (l : List (Fin K)) (A : Fin K → Fin K → ℚ)
    (r k : Fin K) : (l.foldl pruneRow A) r k = A r k ∨ (l.foldl pruneRow A) r k = 0 := by
  induction l generalizing A with
  | nil => exact Or.inl rfl
  | cons i t ih =>
    rw [List.foldl_cons]
    rcases ih (pruneRow A i) with h | h
    · rw [h]; exact pruneRow_cases A i r k
    · exact Or.inr h

lemma foldl_pruneRow_nonneg {K : ℕ} (l : List (Fin K)) (A : Fin K → Fin K → ℚ)
    (hA : ∀ p q, 0 ≤ A p q) (r k : Fin K) : 0 ≤ (l.foldl pruneRow A) r k := by
  rcases foldl_pruneRow_cases l A r k with h | h
  · rw [h]; exact hA r k
  · rw [h]

lemma foldl_pruneRow_le {K : ℕ} (l : List (Fin K)) (A : Fin K → Fin K → ℚ)
    (hA : ∀ p q, 0 ≤ A p q) (r k : Fin K) : (l.foldl pruneRow A) r k ≤ A r k := by
  rcases foldl_pruneRow_cases l A r k with h | h
  · rw [h]
  · rw [h]; exact hA r k

/-- Decomposition of the sequential loop at row i: there is an
intermediate state A (the matrix after the rows before i were pruned)
that is nonnegative, carries the original row i, has all entries equal
to the original entry or zero, dominates the final result, and through
which the final value of row i is computed. -/
lemma pruneSeq_step {K : ℕ} (T : Fin K → Fin K → ℚ) (hT : ∀ p q, 0 ≤ T p q)
    (i : Fin K) :
    ∃ A : Fin K → Fin K → ℚ,
      (∀ p q, 0 ≤ A p q) ∧ (∀ j, A i j = T i j) ∧
      (∀ p q, A p q = T p q ∨ A p q = 0) ∧
      (∀ p q, pruneSeq T p q ≤ A p q) ∧
      (∀ k, pruneSeq T i k = pruneRow A i i k) := by
  have hmem : i ∈ List.finRange K := List.mem_finRange i
  obtain ⟨s, t, hst⟩ := List.append_of_mem hmem
  have hnd : (List.finRange K).Nodup := List.nodup_finRange K
  rw [hst] at hnd
  obtain ⟨hs, hct, hdisj⟩ := List.nodup_append.1 hnd
  have his : i ∉ s := fun h => hdisj h (List.mem_cons_self i t)
  have hit : i ∉ t := (List.nodup_cons.1 hct).1
  have hArow : ∀ j, (s.foldl pruneRow T) i j = T i j :=
    fun j => foldl_pruneRow_notmem s T i his j
  have hAcases : ∀ p q, (s.foldl pruneRow T) p q = T p q ∨ (s.foldl pruneRow T) p q = 0 :=
    fun p q => foldl_pruneRow_cases s T p q
  have hA0 : ∀ p q, 0 ≤ (s.foldl pruneRow T) p q :=
    fun p q => foldl_pruneRow_nonneg s T hT p q
  have hP0 : ∀ p q, 0 ≤ pruneRow (s.foldl pruneRow T) i p q :=
    fun p q => pruneRow_nonneg (s.foldl pruneRow T) i p q hA0
  have hseq : ∀ r k, pruneSeq T r k
      = (t.foldl pruneRow (pruneRow (s.foldl pruneRow T) i)) r k := by
    intro r k
    rw [pruneSeq, hst, List.foldl_append, List.foldl_cons]
  refine ⟨s.foldl pruneRow T, hA0, hArow, hAcases, ?_, ?_⟩
  · intro p q
    rw [hseq p q]
    exact le_trans (foldl_pruneRow_le t _ hP0 p q)
      (pruneRow_le (s.foldl pruneRow T) i p q hA0)
  · intro k
    rw [hseq i k]
    exact foldl_pruneRow_notmem t _ i hit k

/-! ## Pruning claims -/

/-- Matrix exhibiting the order dependence of the in-place pruning
loop: row 0 is pruned first (entry (0,2) is dominated via 3), and row 1
afterwards no longer sees the entry (0,2) its own pruning decision for
(1,2) relied on. -/
def Tc2 : Fin 4 → Fin 4 → ℚ := fun i j =>
  if i = 0 ∧ j = 2 then 5 else if i = 0 ∧ j = 3 then 9 else
  if i = 1 ∧ j = 0 then 8 else if i = 1 ∧ j = 2 then 3 else
  if i = 3 ∧ j = 2 then 9 else 0

/-- Claim C2, counterexample: the sequential in-place pruning loop and
the read-only-input semantics disagree on the nonnegative confidence
matrix Tc2 at entry (1,2): sequentially the entry survives with value 3
(row 0 lost its entry (0,2) before row 1 was processed), while
read-only-input pruning deletes it. -/
theorem claim_C2_counterexample :
    (∀ p q, 0 ≤ Tc2 p q) ∧
    pruneSeq Tc2 1 2 = 3 ∧ pruneReadOnly Tc2 1 2 = 0 ∧
    pruneSeq Tc2 1 2 ≠ pruneReadOnly Tc2 1 2 := by decide

/-- Claim C2, amended: pruning row i writes only row i, but the
sequential in-place loop is not equivalent to computing every row's
decision from the matrix as it stood at entry to the stage; instead,
for every nonnegative confidence matrix, the sequential result lies
entrywise between the read-only-input result and the input (every entry
the sequential loop prunes is also pruned under read-only semantics). -/
theorem claim_C2_theorem {K : ℕ} (T : Fin K → Fin K → ℚ)
    (hT : ∀ p q, 0 ≤ T p q) :
    (∀ i r k, r ≠ i → pruneRow T i r k = T r k) ∧
    (∀ r k, pruneReadOnly T r k ≤ pruneSeq T r k ∧ pruneSeq T r k ≤ T r k) := by
  refine ⟨fun i r k h => pruneRow_ne T i r k h, fun r k => ?_⟩
  obtain ⟨A, hA0, hArow, hAcases, hAle, hAstep⟩ := pruneSeq_step T hT r
  have hle : ∀ p q, A p q ≤ T p q := by
    intro p q
    rcases hAcases p q with h | h
    · rw [h]
    · rw [h]; exact hT p q
  constructor
  · show pruneRow T r r k ≤ pruneSeq T r k
    rw [hAstep k]
    exact pruneRow_step_ge A T r hle hArow hA0 k
  · exact le_trans (hAle r k) (hle r k)

/-- Claim C2, witness of the amended theorem at the concrete matrix. -/
theorem claim_C2_witness :
    pruneReadOnly Tc2 1 2 ≤ pruneSeq Tc2 1 2 ∧ pruneSeq Tc2 1 2 ≤ Tc2 1 2 :=
  (claim_C2_theorem Tc2 (by decide)).2 1 2

/-- Domination example of the spec (section 8), scaled by 20 to keep
the entries kernel-computable integers: row 0 has direct edges
(0,1) = 4 and (0,2) = 1, group 1 has edge (1,2) = 6; the indirect bound
for (0,2) is min 6 4 = 4 > 1, so (0,2) is pruned while (0,1) stays. -/
def Tex : Fin 3 → Fin 3 → ℚ := fun i j =>
  if i = 0 ∧ j = 1 then 4 else if i = 0 ∧ j = 2 then 1 else
  if i = 1 ∧ j = 2 then 6 else 0

/-- Claim C3: one pruning step on row i leaves all other rows
unchanged; when row i has no positive entry the row itself is also
unchanged; otherwise entry (i,k) becomes 0 exactly when it is strictly
below the maximum over the positive columns j of row i of
min (T j k) (T i j), and is otherwise left unchanged. -/
theorem claim_C3_theorem {K : ℕ} (T : Fin K → Fin K → ℚ)
    (_hT : ∀ p q, 0 ≤ T p q) (i : Fin K) :
    (∀ r k, r ≠ i → pruneRow T i r k = T r k) ∧
    (Jset T i = ∅ → ∀ k, pruneRow T i i k = T i k) ∧
    (∀ h : (Jset T i).Nonempty, ∀ k,
      pruneRow T i i k =
        if T i k < (Jset T i).sup' h fun j => min (T j k) (T i j) then 0
        else T i k) := by
  refine ⟨fun r k h => pruneRow_ne T i r k h, ?_, ?_⟩
  · intro hJ k
    rw [pruneRow_self, indirectW, hJ, Finset.sup_empty,
      if_neg (fun hlt => not_lt_bot hlt)]
  · intro h k
    rw [pruneRow_self]
    have hsup : indirectW T i k
        = (((Jset T i).sup' h fun j => min (T j k) (T i j) : ℚ) : WithBot ℚ) := by
      rw [indirectW, Finset.coe_sup']
      rfl
    rw [hsup]
    simp only [WithBot.coe_lt_coe]

/-- Claim C3, witness: on the section-8 example, the dominated entry
(0,2) is pruned to 0 and the entry (0,1) survives, as the pruning rule
dictates. -/
theorem claim_C3_witness :
    pruneRow Tex 0 0 2 = 0 ∧ pruneRow Tex 0 0 1 = Tex 0 1 ∧
    pruneRow Tex 0 0 2 =
      (if Tex 0 2 < (Jset Tex 0).sup' ⟨1, by decide⟩ fun j => min (Tex j 2) (Tex 0 j)
       then 0 else Tex 0 2) :=
  ⟨by decide, by decide, (claim_C3_theorem Tex (by decide) 0).2.2 ⟨1, by decide⟩ 2⟩

/-- Claim C4: the sequential pruning pass is idempotent on nonnegative
confidence matrices; its output is a fixed point of the pass. -/
theorem claim_C4_theorem {K : ℕ} (T : Fin K → Fin K → ℚ)
    (hT : ∀ p q, 0 ≤ T p q) :
    pruneSeq (pruneSeq T) = pruneSeq T := by
  have hstab : ∀ i : Fin K, pruneRow (pruneSeq T) i = pruneSeq T := by
    intro i
    funext r k
    by_cases hri : r = i
    · subst hri
      by_cases h0 : pruneSeq T r k = 0
      · rcases pruneRow_cases (pruneSeq T) r r k with h | h
        · rw [h]
        · rw [h, h0]
      · obtain ⟨B, hB0, hBrow, hBcases, hBle, hBstep⟩ := pruneSeq_step T hT r
        have hTk : pruneSeq T r k = pruneRow B r r k := hBstep k
        have hcond : ¬ ((B r k : WithBot ℚ) < indirectW B r k) := by
          intro hlt
          apply h0
          rw [hTk, pruneRow_self, if_pos hlt]
        have hval : pruneSeq T r k = B r k := by
          rw [hTk, pruneRow_self, if_neg hcond]
        have hrow2 : ∀ j, 0 < pruneSeq T r j → pruneSeq T r j = B r j := by
          intro j hj
          have hj2 := hBstep j
          rcases pruneRow_cases B r r j with h | h
          · rw [hj2, h]
          · exfalso
            rw [hj2, h] at hj
            exact lt_irrefl 0 hj
        have hind : indirectW (pruneSeq T) r k ≤ indirectW B r k :=
          indirectW_mono (pruneSeq T) B r k hBle hrow2
        have hnc : ¬ ((pruneSeq T r k : WithBot ℚ) < indirectW (pruneSeq T) r k) := by
          intro hlt
          apply hcond
          rw [hval] at hlt
          exact lt_of_lt_of_le hlt hind
        rw [pruneRow_self, if_neg hnc]
    · exact pruneRow_ne _ _ _ _ hri
  have hfold : ∀ l : List (Fin K), l.foldl pruneRow (pruneSeq T) = pruneSeq T := by
    intro l
    induction l with
    | nil => rfl
    | cons i t ih => rw [List.foldl_cons, hstab i, ih]
  exact hfold (List.finRange K)

/-- Claim C4, witness at the section-8 example matrix. -/
theorem claim_C4_witness : pruneSeq (pruneSeq Tex) = pruneSeq Tex :=
  claim_C4_theorem Tex (by decide)

/-- Claim C5: pruning never increases an entry; every entry of the
pruned matrix is the original entry or exactly 0, so the support can
only shrink. -/
theorem claim_C5_theorem {K : ℕ} (T : Fin K → Fin K → ℚ)
    (hT : ∀ p q, 0 ≤ T p q) :
    ∀ i j, pruneSeq T i j ≤ T i j ∧
      (pruneSeq T i j = T i j ∨ pruneSeq T i j = 0) :=
  fun i j => ⟨foldl_pruneRow_le (List.finRange K) T hT i j,
    foldl_pruneRow_cases (List.finRange K) T i j⟩

/-- Claim C5, witness: the pruned section-8 example entry (0,2). -/
theorem claim_C5_witness :
    pruneSeq Tex 0 2 ≤ Tex 0 2 ∧
      (pruneSeq Tex 0 2 = Tex 0 2 ∨ pruneSeq Tex 0 2 = 0) :=
  claim_C5_theorem Tex (by decide) 0 2

/-! ## Fine graph, masking and aggregation (paga.py lines 82-100)

vgraph = (velocity_graph > .1) is a boolean matrix, so every fine edge
carries unit weight; the igraph round trip
(get_igraph_from_adjacency, VertexClustering.cluster_graph with
combine_edges summing, get_sparse_from_igraph) therefore yields, for
each ordered pair of distinct groups, the number of fine edges crossing
between them, while intra-group edges become self-loops that
cluster_graph's simplify step removes. -/

/-- Strength cutoff .1 of vgraph = (velocity_graph > .1), stored in
lowest terms so that comparisons reduce in the kernel. -/
def cutoff : ℚ := ⟨1, 10, by norm_num, by simp⟩

lemma cutoff_eq : cutoff = 1 / 10 := by
  unfold cutoff
  rw [Rat.mk'_eq_divInt, Rat.divInt_eq_div]
  norm_num

/-- Fine edge of the thresholded velocity graph: present exactly when
the velocity-graph entry strictly exceeds the cutoff. -/
def fineEdge {N : ℕ} (vg : Fin N → Fin N → ℚ) (u v : Fin N) : Bool :=
  decide (cutoff < vg u v)

/-- Fine edge after the sink and root masks: vgraph rows of sink-member
nodes and vgraph columns of root-member nodes are zeroed before
aggregation. -/
def maskedEdge {N : ℕ} (vg : Fin N → Fin N → ℚ) (sinkM rootM : Fin N → Bool)
    (u v : Fin N) : Bool :=
  fineEdge vg u v && !(sinkM u) && !(rootM v)

/-- Masked fine edges from group g1 to group g2 under the node-to-group
assignment memb. -/
def coarsePairs {N K : ℕ} (vg : Fin N → Fin N → ℚ) (sinkM rootM : Fin N → Bool)
    (memb : Fin N → Fin K) (g1 g2 : Fin K) : Finset (Fin N × Fin N) :=
  Finset.univ.filter fun p =>
    maskedEdge vg sinkM rootM p.1 p.2 = true ∧ memb p.1 = g1 ∧ memb p.2 = g2

/-- Aggregated weight between two groups before loop removal: the sum
of the unit weights of the crossing fine edges. -/
def coarseRaw {N K : ℕ} (vg : Fin N → Fin N → ℚ) (sinkM rootM : Fin N → Bool)
    (memb : Fin N → Fin K) (g1 g2 : Fin K) : ℕ :=
  (coarsePairs vg sinkM rootM memb g1 g2).card

/-- Coarse graph entry: cluster_graph's simplify drops the self-loops
produced by intra-group fine edges, so the diagonal is zero. -/
def coarse {N K : ℕ} (vg : Fin N → Fin N → ℚ) (sinkM rootM : Fin N → Bool)
    (memb : Fin N → Fin K) (g1 g2 : Fin K) : ℕ :=
  if g1 = g2 then 0 else coarseRaw vg sinkM rootM memb g1 g2

/-- Absent mask (no final_cells or root_cells annotation). -/
def noMask {N : ℕ} : Fin N → Bool := fun _ => false

/-! ## Confidence normalization (paga.py lines 101-108) -/

/-- Number of member nodes of a group (vc.sizes()). -/
def groupSize {N K : ℕ} (memb : Fin N → Fin K) (g : Fin K) : ℕ :=
  (Finset.univ.filter fun u => memb u = g).card

/-- Net flow: transitions - transitions.T on the aggregated matrix. -/
def flow {N K : ℕ} (vg : Fin N → Fin N → ℚ) (sinkM rootM : Fin N → Bool)
    (memb : Fin N → Fin K) (i j : Fin K) : ℤ :=
  (coarse vg sinkM rootM memb i j : ℤ) - (coarse vg sinkM rootM memb j i : ℤ)

/-- Null-model expected total per group:
total_n = n_neighbors * vc.sizes() * 2. -/
def total_n {N K : ℕ} (nn : ℕ) (memb : Fin N → Fin K) (i : Fin K) : ℕ :=
  nn * groupSize memb i * 2

/-- Confidence entry: transitions_conf starts as a copy of the flow
matrix, and every nonzero flow entry (i, j, v) is replaced by 0 when
v < 0 and by v / sqrt(total_n i * total_n j) otherwise; zero flow
entries stay zero. -/
noncomputable def conf {N K : ℕ} (vg : Fin N → Fin N → ℚ)
    (sinkM rootM : Fin N → Bool) (memb : Fin N → Fin K) (nn : ℕ)
    (i j : Fin K) : ℝ :=
  if flow vg sinkM rootM memb i j = 0 then 0
  else if flow vg sinkM rootM memb i j < 0 then 0
  else (flow vg sinkM rootM memb i j : ℝ) /
    Real.sqrt ((total_n nn memb i : ℝ) * (total_n nn memb j : ℝ))

/-! ## Spanning-tree threshold (paga.py lines 120-125)

np.nanmax(df.values / (df.values > 0), axis=0) turns each column of the
pruned nonnegative matrix into the maximum of its strictly positive
entries, with NaN for a column without positive entries; df.pop(root)
removes the root column beforehand; np.nanmin skips the NaN columns and
itself yields NaN when every considered column is NaN, and NaN - 1e-6
is NaN. NaN is modelled as WithBot bottom / Option.none. -/

/-- Per-column nanmax of the strictly positive entries; ⊥ models the
NaN of an all-nonpositive column. -/
def colMaxW {K : ℕ} (T : Fin K → Fin K → ℚ) (k : Fin K) : WithBot ℚ :=
  Finset.univ.sup fun i => if 0 < T i k then ((T i k : ℚ) : WithBot ℚ) else ⊥

/-- Columns kept by df.pop(root): every column whose group is not the
designated root. -/
def consideredCols {K : ℕ} (root : Option (Fin K)) : Finset (Fin K) :=
  Finset.univ.filter fun k => root ≠ some k

/-- Threshold: nanmin over the considered columns of the per-column
nanmax, minus 1e-6; none models the NaN result obtained when no
considered column has a positive entry. -/
def threshold {K : ℕ} (T : Fin K → Fin K → ℚ) (root : Option (Fin K)) : Option ℚ :=
  if h : ((consideredCols root).filter fun k => colMaxW T k ≠ ⊥).Nonempty
  then some ((((consideredCols root).filter fun k => colMaxW T k ≠ ⊥).inf' h
    fun k => (colMaxW T k).unbot' 0) - 1 / 1000000)
  else none

/-! ## Aggregation claims -/

/-- Fine graph with a single edge 0 → 1 of weight 1 (above the .1
cutoff). -/
def vgOne : Fin 2 → Fin 2 → ℚ := fun u v => if u = 0 ∧ v = 1 then 1 else 0

/-- Partition putting both nodes into the single group 0. -/
def membOne : Fin 2 → Fin 1 := fun _ => 0

/-- Claim C6, counterexample: with no masks, a fine graph whose single
edge joins two nodes of the same group loses that edge's weight, since
cluster_graph's simplify drops group self-loops: the coarse total is 0
while the fine total is 1. -/
theorem claim_C6_counterexample :
    ¬ (∑ g1 : Fin 1, ∑ g2 : Fin 1, coarse vgOne noMask noMask membOne g1 g2
        = (Finset.univ.filter fun p : Fin 2 × Fin 2 =>
            fineEdge vgOne p.1 p.2 = true).card) := by decide

/-- Claim C6, amended: with no masks applied, the sum of all coarse
graph entries equals the total weight of the fine edges whose endpoints
lie in distinct groups; fine edges inside a single group are dropped
with the coarse self-loops and do not contribute. -/
theorem claim_C6_theorem {N K : ℕ} (vg : Fin N → Fin N → ℚ)
    (memb : Fin N → Fin K) :
    ∑ g1 : Fin K, ∑ g2 : Fin K, coarse vg noMask noMask memb g1 g2
      = (Finset.univ.filter fun p : Fin N × Fin N =>
          fineEdge vg p.1 p.2 = true ∧ memb p.1 ≠ memb p.2).card := by
  have hmask : ∀ u v, maskedEdge vg noMask noMask u v = fineEdge vg u v := by
    intro u v
    simp [maskedEdge, noMask]
  have hcard := Finset.card_eq_sum_card_fiberwise
    (s := Finset.univ.filter fun p : Fin N × Fin N =>
      fineEdge vg p.1 p.2 = true ∧ memb p.1 ≠ memb p.2)
    (t := (Finset.univ : Finset (Fin K × Fin K)))
    (f := fun p => (memb p.1, memb p.2))
    (fun x _ => Finset.mem_univ _)
  rw [hcard, ← Fintype.sum_prod_type']
  apply Finset.sum_congr rfl
  intro g _
  by_cases hgg : g.1 = g.2
  · rw [coarse, if_pos hgg, eq_comm, Finset.card_eq_zero,
      Finset.filter_eq_empty_iff]
    intro p hp
    obtain ⟨_, _, hne⟩ := Finset.mem_filter.1 hp
    intro heq
    apply hne
    have h1 : memb p.1 = g.1 := congrArg Prod.fst heq
    have h2 : memb p.2 = g.2 := congrArg Prod.snd heq
    rw [h1, h2, hgg]
  · rw [coarse, if_neg hgg, coarseRaw]
    congr 1
    ext p
    simp only [coarsePairs, Finset.mem_filter, Finset.filter_filter,
      Finset.mem_univ, true_and, hmask]
    constructor
    · rintro ⟨hfe, h1, h2⟩
      refine ⟨⟨hfe, ?_⟩, ?_⟩
      · rw [h1, h2]; exact hgg
      · rw [h1, h2]
    · rintro ⟨⟨hfe, _⟩, heq⟩
      exact ⟨hfe, congrArg Prod.fst heq, congrArg Prod.snd heq⟩

/-- Claim C7: a masked edge never contributes: any edge whose source is
a sink member or whose target is a root member is absent after masking,
and a fine graph all of whose edges start at sink members aggregates to
a coarse graph of total weight zero. -/
theorem claim_C7_theorem {N K : ℕ} (vg : Fin N → Fin N → ℚ)
    (sinkM rootM : Fin N → Bool) (memb : Fin N → Fin K) :
    (∀ u v, (sinkM u = true ∨ rootM v = true) →
      maskedEdge vg sinkM rootM u v = false) ∧
    ((∀ u v, fineEdge vg u v = true → sinkM u = true) →
      ∑ g1 : Fin K, ∑ g2 : Fin K, coarse vg sinkM rootM memb g1 g2 = 0) := by
  constructor
  · intro u v h
    rcases h with h | h <;> simp [maskedEdge, h]
  · intro hall
    have hpairs : ∀ g1 g2, coarsePairs vg sinkM rootM memb g1 g2 = ∅ := by
      intro g1 g2
      rw [Finset.eq_empty_iff_forall_not_mem]
      intro p hp
      obtain ⟨_, hme, _, _⟩ := Finset.mem_filter.1 hp
      rw [maskedEdge] at hme
      simp only [Bool.and_eq_true] at hme
      obtain ⟨⟨h1, h2⟩, _⟩ := hme
      rw [hall p.1 p.2 h1] at h2
      exact Bool.noConfusion h2
    apply Finset.sum_eq_zero
    intro g1 _
    apply Finset.sum_eq_zero
    intro g2 _
    rw [coarse]
    split
    · rfl
    · rw [coarseRaw, hpairs g1 g2, Finset.card_empty]

/-- Sink mask marking node 0, the source of vgOne's only edge. -/
def sinkC7 : Fin 2 → Bool := fun u => decide (u = 0)

/-- Partition of two nodes into two singleton groups. -/
def membTwo : Fin 2 → Fin 2 := fun u => u

/-- Claim C7, witness: the single-edge fine graph whose edge starts at
a masked sink node yields a coarse graph of total weight zero. -/
theorem claim_C7_witness :
    (∀ u v, fineEdge vgOne u v = true → sinkC7 u = true) ∧
    ∑ g1 : Fin 2, ∑ g2 : Fin 2, coarse vgOne sinkC7 noMask membTwo g1 g2 = 0 :=
  ⟨by decide, (claim_C7_theorem vgOne sinkC7 noMask membTwo).2 (by decide)⟩

/-! ## Normalization claims -/

/-- Claim C8: every nonzero flow entry is scored 0 when the flow is
negative and flow / sqrt(total_n i * total_n j) otherwise, and every
stored confidence entry is nonnegative. -/
theorem claim_C8_theorem {N K : ℕ} (vg : Fin N → Fin N → ℚ)
    (sinkM rootM : Fin N → Bool) (memb : Fin N → Fin K) (nn : ℕ) :
    (∀ i j, flow vg sinkM rootM memb i j ≠ 0 →
      conf vg sinkM rootM memb nn i j =
        if flow vg sinkM rootM memb i j < 0 then 0
        else (flow vg sinkM rootM memb i j : ℝ) /
          Real.sqrt ((total_n nn memb i : ℝ) * (total_n nn memb j : ℝ))) ∧
    (∀ i j, 0 ≤ conf vg sinkM rootM memb nn i j) := by
  constructor
  · intro i j h
    rw [conf, if_neg h]
  · intro i j
    by_cases h0 : flow vg sinkM rootM memb i j = 0
    · rw [conf, if_pos h0]
    · by_cases hneg : flow vg sinkM rootM memb i j < 0
      · rw [conf, if_neg h0, if_pos hneg]
      · rw [conf, if_neg h0, if_neg hneg]
        apply div_nonneg
        · exact_mod_cast le_of_not_lt hneg
        · exact Real.sqrt_nonneg _

/-- Claim C8, witness at the single-edge two-group graph, whose flow
entry (0,1) is 1. -/
theorem claim_C8_witness :
    flow vgOne noMask noMask membTwo 0 1 ≠ 0 ∧
    conf vgOne noMask noMask membTwo 1 0 1 =
      (if flow vgOne noMask noMask membTwo 0 1 < 0 then 0
       else (flow vgOne noMask noMask membTwo 0 1 : ℝ) /
         Real.sqrt ((total_n 1 membTwo 0 : ℝ) * (total_n 1 membTwo 1 : ℝ))) :=
  ⟨by decide, (claim_C8_theorem vgOne noMask noMask membTwo 1).1 0 1 (by decide)⟩

/-- Nonzero aggregated weight between two groups forces both groups to
be inhabited. -/
lemma coarse_ne_zero_sizes {N K : ℕ} (vg : Fin N → Fin N → ℚ)
    (sinkM rootM : Fin N → Bool) (memb : Fin N → Fin K) (g1 g2 : Fin K)
    (h : coarse vg sinkM rootM memb g1 g2 ≠ 0) :
    0 < groupSize memb g1 ∧ 0 < groupSize memb g2 := by
  rw [coarse] at h
  by_cases hgg : g1 = g2
  · rw [if_pos hgg] at h
    exact absurd rfl h
  · rw [if_neg hgg, coarseRaw] at h
    obtain ⟨p, hp⟩ := Finset.card_pos.1 (Nat.pos_of_ne_zero h)
    obtain ⟨_, _, h1, h2⟩ := Finset.mem_filter.1 hp
    constructor
    · exact Finset.card_pos.2 ⟨p.1, Finset.mem_filter.2 ⟨Finset.mem_univ _, h1⟩⟩
    · exact Finset.card_pos.2 ⟨p.2, Finset.mem_filter.2 ⟨Finset.mem_univ _, h2⟩⟩

/-- Claim C10: whenever the confidence division is evaluated (nonzero
flow), both groups are inhabited, so with a positive neighbor count the
divisor sqrt(total_n i * total_n j) is strictly positive: no division
by zero, and the quotient is an ordinary finite real number. -/
theorem claim_C10_theorem {N K : ℕ} (vg : Fin N → Fin N → ℚ)
    (sinkM rootM : Fin N → Bool) (memb : Fin N → Fin K) (nn : ℕ)
    (hnn : 1 ≤ nn) (i j : Fin K)
    (hflow : flow vg sinkM rootM memb i j ≠ 0) :
    0 < groupSize memb i ∧ 0 < groupSize memb j ∧
    0 < Real.sqrt ((total_n nn memb i : ℝ) * (total_n nn memb j : ℝ)) := by
  have hco : coarse vg sinkM rootM memb i j ≠ 0 ∨
      coarse vg sinkM rootM memb j i ≠ 0 := by
    by_contra hc
    push_neg at hc
    apply hflow
    rw [flow, hc.1, hc.2]
    rfl
  have hsz : 0 < groupSize memb i ∧ 0 < groupSize memb j := by
    rcases hco with h | h
    · exact coarse_ne_zero_sizes vg sinkM rootM memb i j h
    · obtain ⟨a, b⟩ := coarse_ne_zero_sizes vg sinkM rootM memb j i h
      exact ⟨b, a⟩
  refine ⟨hsz.1, hsz.2, Real.sqrt_pos.2 (mul_pos ?_ ?_)⟩
  · have h1 : 0 < total_n nn memb i :=
      Nat.mul_pos (Nat.mul_pos hnn hsz.1) (by norm_num)
    exact_mod_cast h1
  · have h2 : 0 < total_n nn memb j :=
      Nat.mul_pos (Nat.mul_pos hnn hsz.2) (by norm_num)
    exact_mod_cast h2

/-- Claim C10, witness at the single-edge two-group graph with one
neighbor. -/
theorem claim_C10_witness :
    (1 ≤ 1 ∧ flow vgOne noMask noMask membTwo 0 1 ≠ 0) ∧
    (0 < groupSize membTwo 0 ∧ 0 < groupSize membTwo 1 ∧
     0 < Real.sqrt ((total_n 1 membTwo 0 : ℝ) * (total_n 1 membTwo 1 : ℝ))) :=
  ⟨⟨le_refl 1, by decide⟩,
    claim_C10_theorem vgOne noMask noMask membTwo 1 (le_refl 1) 0 1 (by decide)⟩

/-! ## Threshold claims -/

lemma colMaxW_ne_bot_iff {K : ℕ} (T : Fin K → Fin K → ℚ) (k : Fin K) :
    colMaxW T k ≠ ⊥ ↔ ∃ i, 0 < T i k := by
  rw [colMaxW, Ne, Finset.sup_eq_bot_iff]
  push_neg
  constructor
  · rintro ⟨i, _, hfi⟩
    refine ⟨i, ?_⟩
    by_contra hpos
    exact hfi (by simp [hpos])
  · rintro ⟨i, hpos⟩
    exact ⟨i, Finset.mem_univ i, by simp [hpos]⟩

lemma colMaxW_attained {K : ℕ} (T : Fin K → Fin K → ℚ) (k : Fin K)
    (h : colMaxW T k ≠ ⊥) :
    ∃ i, 0 < T i k ∧ (colMaxW T k).unbot' 0 = T i k := by
  have hne : (Finset.univ : Finset (Fin K)).Nonempty := ⟨k, Finset.mem_univ k⟩
  obtain ⟨i, _, hsup⟩ := Finset.exists_mem_eq_sup Finset.univ hne
    (fun i => if 0 < T i k then ((T i k : ℚ) : WithBot ℚ) else ⊥)
  have hcol : colMaxW T k
      = if 0 < T i k then ((T i k : ℚ) : WithBot ℚ) else ⊥ := hsup
  by_cases hpos : 0 < T i k
  · refine ⟨i, hpos, ?_⟩
    rw [hcol, if_pos hpos]
    rfl
  · exfalso
    apply h
    rw [hcol, if_neg hpos]

/-- Claim C1: when every non-root column of the pruned confidence
matrix has a strictly positive entry (and a non-root column exists),
the threshold is the numeric value min of the column maxima minus 1e-6,
and discarding all entries strictly below it leaves every non-root
group with at least one incoming edge. -/
theorem claim_C1_theorem {K : ℕ} (T : Fin K → Fin K → ℚ)
    (root : Option (Fin K)) (hne : ∃ k, root ≠ some k)
    (hpos : ∀ k, root ≠ some k → ∃ i, 0 < T i k) :
    ∃ t, threshold T root = some t ∧
      ∀ k, root ≠ some k → ∃ i, 0 < T i k ∧ t ≤ T i k := by
  have hmem : ∀ k, root ≠ some k →
      k ∈ (consideredCols root).filter fun k => colMaxW T k ≠ ⊥ := by
    intro k hk
    exact Finset.mem_filter.2
      ⟨Finset.mem_filter.2 ⟨Finset.mem_univ k, hk⟩,
       (colMaxW_ne_bot_iff T k).2 (hpos k hk)⟩
  obtain ⟨k0, hk0⟩ := hne
  have hksne : ((consideredCols root).filter fun k => colMaxW T k ≠ ⊥).Nonempty :=
    ⟨k0, hmem k0 hk0⟩
  refine ⟨(((consideredCols root).filter fun k => colMaxW T k ≠ ⊥).inf' hksne
    fun k => (colMaxW T k).unbot' 0) - 1 / 1000000, ?_, ?_⟩
  · rw [threshold, dif_pos hksne]
  · intro k hk
    obtain ⟨i, hipos, hunbot⟩ :=
      colMaxW_attained T k ((colMaxW_ne_bot_iff T k).2 (hpos k hk))
    refine ⟨i, hipos, ?_⟩
    have hinf : (((consideredCols root).filter fun k => colMaxW T k ≠ ⊥).inf' hksne
        fun k => (colMaxW T k).unbot' 0) ≤ (colMaxW T k).unbot' 0 :=
      Finset.inf'_le _ (hmem k hk)
    rw [hunbot] at hinf
    have heps : (0:ℚ) < 1 / 1000000 := by norm_num
    linarith

/-- Pruned confidence matrix of the section-8 threshold example, scaled
by 10 to integer entries: edges (0,1) = 5, (1,2) = 3, (0,2) = 1, with
group 0 designated root. -/
def Tc1 : Fin 3 → Fin 3 → ℚ := fun i j =>
  if i = 0 ∧ j = 1 then 5 else if i = 1 ∧ j = 2 then 3 else
  if i = 0 ∧ j = 2 then 1 else 0

/-- Claim C1, witness: both non-root columns of Tc1 have a positive
entry and keep an edge at or above the threshold. -/
theorem claim_C1_witness :
    ∃ t, threshold Tc1 (some 0) = some t ∧
      ∀ k, (some 0 : Option (Fin 3)) ≠ some k →
        ∃ i, 0 < Tc1 i k ∧ t ≤ Tc1 i k :=
  claim_C1_theorem Tc1 (some 0) (by decide) (by decide)

/-- Claim C9: when no considered (non-root) column has a strictly
positive entry, the threshold is the undefined value none — the NaN the
code produces — and never any numeric value. -/
theorem claim_C9_theorem {K : ℕ} (T : Fin K → Fin K → ℚ)
    (root : Option (Fin K))
    (h : ∀ k, root ≠ some k → ∀ i, ¬ 0 < T i k) :
    threshold T root = none ∧ ∀ q : ℚ, threshold T root ≠ some q := by
  have hempty : ¬ ((consideredCols root).filter fun k => colMaxW T k ≠ ⊥).Nonempty := by
    rintro ⟨k, hk⟩
    obtain ⟨hk1, hk2⟩ := Finset.mem_filter.1 hk
    obtain ⟨_, hk1'⟩ := Finset.mem_filter.1 hk1
    obtain ⟨i, hi⟩ := (colMaxW_ne_bot_iff T k).1 hk2
    exact h k hk1' i hi
  have hnone : threshold T root = none := by
    rw [threshold, dif_neg hempty]
  refine ⟨hnone, fun q hq => ?_⟩
  rw [hnone] at hq
  exact Option.noConfusion hq

/-- All-zero confidence matrix: no positive edges at all. -/
def Tzero : Fin 2 → Fin 2 → ℚ := fun _ _ => 0

/-- Claim C9, witness: with no positive entry anywhere and no root, the
threshold is none. -/
theorem claim_C9_witness :
    threshold Tzero none = none ∧ ∀ q : ℚ, threshold Tzero none ≠ some q :=
  claim_C9_theorem Tzero none (by decide)

end Paga
